import Mathlib

/-!
Verification of the chunk-level checkpoint and resume engine of the
meetings-transcript repository.

The development shallowly embeds the checkpoint store (`checkpoint.py`,
class `CheckpointManager` over the SQLite tables `jobs`, `files`,
`chunks`), the chunk planner and the chunk-processing/reassembly loop
(`transcribe.py`, class `TranscriptionService`).  SQLite tables are
modelled as Lean lists of records, the manager object as a structure,
and each store operation as a pure function from (manager, table state)
to the updated state, mirroring the SQL statements it executes.
Timestamps (`datetime.utcnow().isoformat()`) are threaded as opaque
string arguments.  Seconds values (Python floats that are only ever
produced by integer arithmetic plus one `min` against the probed
duration) are modelled as rationals.
-/

namespace MeetingsTranscript

/-! ### Decimal rendering of naturals

Python renders chunk indices into identifiers with `f"{index}"` and
`f"{index:04d}"`.  We model decimal rendering with an explicit-fuel
structural recursion so that the kernel can evaluate it, and prove it
injective (needed to show that distinct chunk indices yield distinct
`chunk_id` primary keys). -/

/-- The character for one decimal digit (models Python's rendering of a digit). -/
def digitCh (d : Nat) : Char := Char.ofNat (48 + d)

/-- Fuel-based decimal digit-character rendering, most significant digit first. -/
def decChars : Nat → Nat → List Char
  | 0, _ => []
  | fuel + 1, n =>
      if n < 10 then [digitCh n]
      else decChars fuel (n / 10) ++ [digitCh (n % 10)]

/-- Decimal representation of a natural number; models Python `f"{n}"` for `n ≥ 0`. -/
def decRepr (n : Nat) : String := String.mk (decChars (n + 1) n)

theorem digitCh_inj : ∀ d, d < 10 → ∀ e, e < 10 → digitCh d = digitCh e → d = e := by
  decide

theorem decChars_fuel :
    ∀ n f g, n < f → n < g → decChars f n = decChars g n := by
  intro n
  induction n using Nat.strong_induction_on with
  | _ n ih =>
    intro f g hf hg
    cases f with
    | zero => omega
    | succ f =>
      cases g with
      | zero => omega
      | succ g =>
        by_cases h10 : n < 10
        · simp [decChars, h10]
        · have hdiv : n / 10 < n := Nat.div_lt_self (by omega) (by omega)
          simp only [decChars, if_neg h10]
          rw [ih (n / 10) hdiv (f) (g) (by omega) (by omega)]

theorem decChars_ne_nil : ∀ f n, n < f → decChars f n ≠ [] := by
  intro f
  cases f with
  | zero => intro n hn; omega
  | succ f =>
    intro n _
    by_cases h10 : n < 10
    · simp [decChars, h10]
    · simp only [decChars, if_neg h10]
      exact List.append_ne_nil_of_right_ne_nil _ (by simp)

theorem decChars_inj :
    ∀ n m f g, n < f → m < g → decChars f n = decChars g m → n = m := by
  intro n
  induction n using Nat.strong_induction_on with
  | _ n ih =>
    intro m f g hf hg heq
    cases f with
    | zero => omega
    | succ f =>
      cases g with
      | zero => omega
      | succ g =>
        by_cases hn10 : n < 10 <;> by_cases hm10 : m < 10
        · simp only [decChars, if_pos hn10, if_pos hm10, List.cons.injEq] at heq
          exact digitCh_inj n hn10 m hm10 heq.1
        · exfalso
          simp only [decChars, if_pos hn10, if_neg hm10] at heq
          have hne : decChars g (m / 10) ≠ [] :=
            decChars_ne_nil g (m / 10) (by
              have : m / 10 < m := Nat.div_lt_self (by omega) (by omega)
              omega)
          have hlen := congrArg List.length heq
          cases hmm : decChars g (m / 10) with
          | nil => exact hne hmm
          | cons a l => rw [hmm] at hlen; simp at hlen
        · exfalso
          simp only [decChars, if_neg hn10, if_pos hm10] at heq
          have hne : decChars f (n / 10) ≠ [] :=
            decChars_ne_nil f (n / 10) (by
              have : n / 10 < n := Nat.div_lt_self (by omega) (by omega)
              omega)
          have hlen := congrArg List.length heq
          cases hnn : decChars f (n / 10) with
          | nil => exact hne hnn
          | cons a l => rw [hnn] at hlen; simp at hlen
        · simp only [decChars, if_neg hn10, if_neg hm10] at heq
          have hinj := List.append_inj' heq (by simp)
          have hdivn : n / 10 < n := Nat.div_lt_self (by omega) (by omega)
          have hdivm : m / 10 < m := Nat.div_lt_self (by omega) (by omega)
          have hpre : decChars f (n / 10) = decChars g (m / 10) := hinj.1
          have hdigit : digitCh (n % 10) = digitCh (m % 10) := by
            have := hinj.2
            simpa using this
          have hdiv : n / 10 = m / 10 :=
            ih (n / 10) hdivn (m / 10) f g (by omega) (by omega) hpre
          have hmod : n % 10 = m % 10 :=
            digitCh_inj (n % 10) (Nat.mod_lt _ (by omega)) (m % 10)
              (Nat.mod_lt _ (by omega)) hdigit
          omega

theorem decRepr_inj : ∀ n m, decRepr n = decRepr m → n = m := by
  intro n m heq
  have hlist : decChars (n + 1) n = decChars (m + 1) m := by
    have := congrArg String.data heq
    simpa [decRepr] using this
  exact decChars_inj n m (n + 1) (m + 1) (Nat.lt_succ_self n) (Nat.lt_succ_self m) hlist

/-- Strip leading and trailing whitespace from a character list. -/
def stripChars (l : List Char) : List Char :=
  ((l.dropWhile Char.isWhitespace).reverse.dropWhile Char.isWhitespace).reverse

/-- Models Python `str.strip()` (used as `.strip()` on every transcript text):
removes leading and trailing whitespace. -/
def pyStrip (s : String) : String := String.mk (stripChars s.data)

/-- Python renders `None` as the string `"None"` inside an f-string; any other
string renders as itself.  Used for `f"chunk_{self.file_id}_{index}"` where
`self.file_id : Optional[str]`. -/
def optStr : Option String → String
  | none => "None"
  | some s => s

/-- Models the `hashlib.sha256(...).hexdigest()` calls.  The external digest is
an opaque deterministic function of its input; the development relies only on
determinism, which any function provides. -/
def sha256Hex (s : String) : String := s

/-! ### Data model: the SQLite tables of `checkpoint.py` -/

/-- The `status` column of the `chunks` table.  The code writes
`'pending'`, `'running'`, `'done'`, `'retryable_failed'`, `'permanent_failed'`
and additionally queries for `'abandoned'`. -/
inductive ChunkStatus where
  | pending
  | running
  | done
  | retryableFailed
  | permanentFailed
  | abandoned
deriving DecidableEq

/-- One row of the `chunks` table (`_ensure_schema`, `checkpoint.py`). -/
structure ChunkRecord where
  chunkId : String
  fileId : String
  chunkIndex : Nat
  startSeconds : ℚ
  endSeconds : ℚ
  planHash : String
  status : ChunkStatus
  transcriptUri : Option String := none
  transcriptSha256 : Option String := none
  lastError : Option String := none
  startedAt : Option String := none
  completedAt : Option String := none
  updatedAt : String
deriving DecidableEq

/-- One row of the `files` table. -/
structure FileRecord where
  fileId : String
  jobId : String
  sourceUri : String
  fingerprint : String
  totalChunks : Nat
  doneChunks : Nat := 0
  finalOutputUri : Option String := none
  finalOutputSha256 : Option String := none
  updatedAt : String
deriving DecidableEq

/-- One row of the `jobs` table. -/
structure JobRecord where
  jobId : String
  createdAt : String
  status : String
  updatedAt : String
deriving DecidableEq

/-- The whole checkpoint database (one SQLite file). -/
structure DB where
  jobs : List JobRecord := []
  files : List FileRecord := []
  chunks : List ChunkRecord := []
deriving DecidableEq

/-- The in-memory state of a `CheckpointManager` object.  `connOpen` models
`self._conn is not None`. -/
structure CheckpointManager where
  connOpen : Bool
  sourceUri : String
  fingerprint : String
  totalChunks : Nat
  resume : Bool
  jobId : String
  fileId : Option String
deriving DecidableEq

/-- `ChunkSpec` of `checkpoint.py`: deterministic boundaries for a chunk. -/
structure ChunkSpec where
  index : Nat
  startSeconds : ℚ
  endSeconds : ℚ
  planHash : String
deriving DecidableEq

/-- `file_id` derivation of `_ensure_file_and_job`:
`f"file_{hashlib.sha256(self.source_uri.encode()).hexdigest()}"` — a function
of the source URI alone. -/
def fileIdFor (sourceUri : String) : String := "file_" ++ sha256Hex sourceUri

/-- `chunk_id` derivation: `f"chunk_{self.file_id}_{index}"`. -/
def chunkIdFor (fileId : Option String) (index : Nat) : String :=
  "chunk_" ++ optStr fileId ++ "_" ++ decRepr index

/-! ### Store operations (`CheckpointManager`, `checkpoint.py`) -/

/-- The `last_error` text written by the reconciliation step of
`_ensure_file_and_job`. -/
def abandonedNote : String := "Chunk abandoned due to interruption"

/-- `_ensure_file_and_job` (checkpoint.py lines 152-212).  `now` models the
single `datetime.utcnow().isoformat()` taken at entry. -/
def ensureFileAndJob (m : CheckpointManager) (db : DB) (now : String) :
    CheckpointManager × DB :=
  match db.files.find? (fun f =>
      f.sourceUri = m.sourceUri && f.fingerprint = m.fingerprint) with
  | some row =>
      if m.resume then
        -- reuse the file id; reconcile running chunks of this file
        ({ m with fileId := some row.fileId },
         { db with
            chunks := db.chunks.map (fun c =>
              if c.fileId = row.fileId && c.status = ChunkStatus.running then
                { c with
                    status := ChunkStatus.retryableFailed,
                    lastError := some abandonedNote,
                    updatedAt := now }
              else c) })
      else
        ensureFreshFile m db now
  | none => ensureFreshFile m db now
where
  /-- The non-resume tail of `_ensure_file_and_job`: derive the file id from
  the source URI, upsert the job row, then update-or-insert the file row. -/
  ensureFreshFile (m : CheckpointManager) (db : DB) (now : String) :
      CheckpointManager × DB :=
    let fid := fileIdFor m.sourceUri
    let jobs := db.jobs.filter (fun j => j.jobId ≠ m.jobId) ++
      [{ jobId := m.jobId, createdAt := now, status := "running", updatedAt := now }]
    let files :=
      if db.files.any (fun f => f.fileId = fid) then
        db.files.map (fun f =>
          if f.fileId = fid then
            { f with
                jobId := m.jobId,
                sourceUri := m.sourceUri,
                fingerprint := m.fingerprint,
                totalChunks := m.totalChunks,
                updatedAt := now }
          else f)
      else
        db.files ++
          [{ fileId := fid, jobId := m.jobId, sourceUri := m.sourceUri,
             fingerprint := m.fingerprint, totalChunks := m.totalChunks,
             updatedAt := now }]
    ({ m with fileId := some fid }, { db with jobs := jobs, files := files })

/-- `CheckpointManager.__init__` (checkpoint.py lines 34-65).  `prior` is the
database found on disk at `db_path` (`none` when the file does not exist);
`reset` unlinks it and starts empty. -/
def openCheckpoint (prior : Option DB) (sourceUri fingerprint : String)
    (totalChunks : Nat) (resume reset : Bool) (jobId now : String) :
    CheckpointManager × DB :=
  let db0 := if reset then {} else prior.getD {}
  let m0 : CheckpointManager :=
    { connOpen := true, sourceUri := sourceUri, fingerprint := fingerprint,
      totalChunks := totalChunks, resume := resume && !reset,
      jobId := jobId, fileId := none }
  ensureFileAndJob m0 db0 now

/-- One `INSERT OR IGNORE INTO chunks ...` of `register_chunks`: inserts a
pending row unless a row with the same `chunk_id` primary key exists. -/
def registerOne (m : CheckpointManager) (now : String) (acc : DB)
    (spec : ChunkSpec) : DB :=
  let cid := chunkIdFor m.fileId spec.index
  if acc.chunks.any (fun c => c.chunkId = cid) then acc
  else
    { acc with
        chunks := acc.chunks ++
          [{ chunkId := cid, fileId := optStr m.fileId,
             chunkIndex := spec.index, startSeconds := spec.startSeconds,
             endSeconds := spec.endSeconds, planHash := spec.planHash,
             status := ChunkStatus.pending, updatedAt := now }] }

/-- `register_chunks` (checkpoint.py lines 214-232): one
`INSERT OR IGNORE` per spec, keyed on the `chunk_id` primary key. -/
def registerChunks (m : CheckpointManager) (db : DB) (specs : List ChunkSpec)
    (now : String) : DB :=
  specs.foldl (registerOne m now) db

/-- The status set of the claim query:
`status IN ('pending', 'retryable_failed', 'abandoned')`. -/
def eligibleStatus : ChunkStatus → Bool
  | ChunkStatus.pending => true
  | ChunkStatus.retryableFailed => true
  | ChunkStatus.abandoned => true
  | _ => false

/-- The row filter of the claim query: `WHERE file_id = ? AND status IN (...)`,
with `?` bound to `self.file_id`. -/
def claimEligible (m : CheckpointManager) (c : ChunkRecord) : Bool :=
  some c.fileId = m.fileId && eligibleStatus c.status

/-- Accumulator for the minimum-`chunk_index` row scan. -/
def minIndexAcc (acc : Option ChunkRecord) (c : ChunkRecord) :
    Option ChunkRecord :=
  match acc with
  | none => some c
  | some b => if c.chunkIndex < b.chunkIndex then some c else some b

/-- `ORDER BY chunk_index LIMIT 1`: the row with the least `chunk_index`
among the candidates. -/
def selectMinIndex (l : List ChunkRecord) : Option ChunkRecord :=
  l.foldl minIndexAcc none

/-- The `UPDATE` applied by `claim_next_chunk` to the selected row. -/
def claimStamp (c : ChunkRecord) (now : String) : ChunkRecord :=
  { c with status := ChunkStatus.running, startedAt := some now, updatedAt := now }

/-- `claim_next_chunk` (checkpoint.py lines 234-249): returns `None` when the
connection is closed; otherwise selects the lowest-index eligible chunk,
marks it running and stamps `started_at`, returning its descriptor. -/
def claimNextChunk (m : CheckpointManager) (db : DB) (now : String) :
    Option (Nat × ℚ × ℚ × String) × DB :=
  if !m.connOpen then (none, db)
  else
    match selectMinIndex (db.chunks.filter (claimEligible m)) with
    | none => (none, db)
    | some row =>
        (some (row.chunkIndex, row.startSeconds, row.endSeconds, row.planHash),
         { db with
            chunks := db.chunks.map (fun c =>
              if c.chunkId = row.chunkId then claimStamp c now else c) })

/-- `mark_chunk_done` (checkpoint.py lines 251-266): no-op when closed;
otherwise updates the chunk row keyed by the re-derived `chunk_id`, and
unconditionally increments `done_chunks` on the file row. -/
def markChunkDone (m : CheckpointManager) (db : DB) (chunkIndex : Nat)
    (transcriptUri transcriptSha256 now : String) : DB :=
  if !m.connOpen then db
  else
    let cid := chunkIdFor m.fileId chunkIndex
    { db with
        chunks := db.chunks.map (fun c =>
          if c.chunkId = cid then
            { c with
                status := ChunkStatus.done,
                transcriptUri := some transcriptUri,
                transcriptSha256 := some transcriptSha256,
                completedAt := some now,
                updatedAt := now }
          else c),
        files := db.files.map (fun f =>
          if some f.fileId = m.fileId then
            { f with doneChunks := f.doneChunks + 1, updatedAt := now }
          else f) }

/-- `mark_chunk_failed` (checkpoint.py lines 268-280): no-op when closed;
otherwise records the error with status `permanent_failed` or
`retryable_failed`. -/
def markChunkFailed (m : CheckpointManager) (db : DB) (chunkIndex : Nat)
    (error : String) (permanent : Bool) (now : String) : DB :=
  if !m.connOpen then db
  else
    let cid := chunkIdFor m.fileId chunkIndex
    { db with
        chunks := db.chunks.map (fun c =>
          if c.chunkId = cid then
            { c with
                status :=
                  if permanent then ChunkStatus.permanentFailed
                  else ChunkStatus.retryableFailed,
                lastError := some error,
                updatedAt := now }
          else c) }

/-- `persist_final_output` (checkpoint.py lines 282-290): no-op when closed;
otherwise records the final artifact's location and hash on the file row. -/
def persistFinalOutput (m : CheckpointManager) (db : DB)
    (uri sha256 now : String) : DB :=
  if !m.connOpen then db
  else
    { db with
        files := db.files.map (fun f =>
          if some f.fileId = m.fileId then
            { f with
                finalOutputUri := some uri,
                finalOutputSha256 := some sha256,
                updatedAt := now }
          else f) }

/-- `close` (checkpoint.py lines 80-92): flushes and drops the connection.
The on-disk database is unchanged by the flush. -/
def closeCheckpoint (m : CheckpointManager) : CheckpointManager :=
  { m with connOpen := false }

/-! ### Chunk planner (`transcribe.py`) -/

/-- Decimal rendering of an integer (models Python `repr` of an int). -/
def intRepr (i : ℤ) : String :=
  if i < 0 then "-" ++ decRepr i.natAbs else decRepr i.natAbs

/-- Canonical rendering of a rational second count (models the JSON number
serialization of the Python float, which is exact for the values produced by
the planner's integer arithmetic). -/
def ratRepr (q : ℚ) : String := intRepr q.num ++ "/" ++ decRepr q.den

/-- `_chunk_plan_hash` (transcribe.py lines 496-499): digest of the sorted-key
JSON serialization of the plan payload, modelled as a digest of a canonical
key-sorted rendering of the same six fields. -/
def chunkPlanHash (chunkSeconds : Nat) (language modelSize : String)
    (index : Nat) (startSeconds endSeconds : ℚ) : String :=
  sha256Hex ("chunk_seconds=" ++ decRepr chunkSeconds ++
    ";end_seconds=" ++ ratRepr endSeconds ++
    ";index=" ++ decRepr index ++
    ";language=" ++ language ++
    ";model_size=" ++ modelSize ++
    ";start_seconds=" ++ ratRepr startSeconds)

/-- `num_chunks = max(1, math.ceil(total_duration / chunk_seconds))`
(transcribe.py line 194). -/
def numChunks (totalDuration : ℚ) (chunkSeconds : Nat) : Nat :=
  max 1 (Int.toNat ⌈totalDuration / (chunkSeconds : ℚ)⌉)

/-- The chunk spec built for index `idx` by `_transcribe_with_chunking`
(transcribe.py lines 365-381): `start = idx * chunk_seconds`,
`end = min(total_duration, (idx + 1) * chunk_seconds)`. -/
def plannedSpec (totalDuration : ℚ) (chunkSeconds : Nat)
    (language modelSize : String) (idx : Nat) : ChunkSpec :=
  { index := idx,
    startSeconds := (idx : ℚ) * (chunkSeconds : ℚ),
    endSeconds := min totalDuration (((idx : ℚ) + 1) * (chunkSeconds : ℚ)),
    planHash := chunkPlanHash chunkSeconds language modelSize idx
      ((idx : ℚ) * (chunkSeconds : ℚ))
      (min totalDuration (((idx : ℚ) + 1) * (chunkSeconds : ℚ))) }

/-- The full plan: one spec per produced audio chunk.  When every external
`ffmpeg` extraction succeeds (the opaque media tool is specified only at its
interface boundary), `split_audio_into_chunks` returns exactly `num_chunks`
paths, so the spec list ranges over `num_chunks` indices. -/
def planChunkSpecs (totalDuration : ℚ) (chunkSeconds : Nat)
    (language modelSize : String) : List ChunkSpec :=
  (List.range (numChunks totalDuration chunkSeconds)).map
    (plannedSpec totalDuration chunkSeconds language modelSize)

/-! ### Artifact writing and reassembly (`transcribe.py`) -/

/-- Python `f"{idx:04d}"`: decimal rendering left-padded with zeros to
width 4. -/
def pad4 (n : Nat) : String :=
  let s := decRepr n
  String.mk (List.replicate (4 - s.length) '0') ++ s

/-- The artifact file path `chunk_dir / f"chunk_{idx:04d}.txt"` used by both
`write_chunk_artifact` and `_finalize_chunk_transcripts`. -/
def chunkArtifactPath (chunkDir : String) (idx : Nat) : String :=
  chunkDir ++ "/chunk_" ++ pad4 idx ++ ".txt"

/-- `write_chunk_artifact` (checkpoint.py lines 304-319): durably writes the
chunk text (modelled as updating the index-keyed artifact map) and returns
the final path together with the content digest. -/
def writeChunkArtifact (artifacts : Nat → Option String) (chunkDir : String)
    (idx : Nat) (text : String) : (Nat → Option String) × String × String :=
  (Function.update artifacts idx (some text),
   chunkArtifactPath chunkDir idx, sha256Hex text)

/-- One artifact's contribution to reassembly (transcribe.py lines 453-460):
a missing file is skipped, a present file contributes its trimmed text
unless that trimmed text is empty. -/
def trimmedPart : Option String → Option String
  | none => none
  | some s => if pyStrip s = "" then none else some (pyStrip s)

/-- The `parts` list of `_finalize_chunk_transcripts`: artifacts
`0 .. total_chunks - 1` scanned in index order. -/
def collectParts (artifacts : Nat → Option String) (totalChunks : Nat) :
    List String :=
  (List.range totalChunks).filterMap (fun idx => trimmedPart (artifacts idx))

/-- The combined transcript text `"\n".join(parts)` of
`_finalize_chunk_transcripts` (transcribe.py lines 444-471). -/
def finalizeText (artifacts : Nat → Option String) (totalChunks : Nat) :
    String :=
  String.intercalate "\n" (collectParts artifacts totalChunks)

/-- `_finalize_chunk_transcripts` in full: builds the combined text, writes it
to the output path and records it in the store via `persist_final_output`. -/
def finalizeChunkTranscripts (artifacts : Nat → Option String)
    (totalChunks : Nat) (outputPath : String) (m : CheckpointManager)
    (db : DB) (now : String) : String × DB :=
  let combined := finalizeText artifacts totalChunks
  (combined, persistFinalOutput m db outputPath (sha256Hex combined) now)

/-! ### The chunk-processing loop (`_transcribe_with_chunking`) -/

/-- The environment the loop runs in: presence of each chunk's audio segment
(`chunk_map.get(idx)` plus `chunk_path.exists()`), the opaque transcription
engine's text output per chunk, and the artifact directory. -/
structure LoopEnv where
  chunkAudioPresent : Nat → Bool
  engineText : Nat → String
  chunkDir : String

/-- Mutable state of the loop: the checkpoint database and the artifact
directory contents, keyed by chunk index. -/
structure LoopState where
  db : DB
  artifacts : Nat → Option String

/-- The error recorded when a claimed chunk's audio segment is absent
(transcribe.py line 414). -/
def chunkMissingMsg (idx : Nat) : String :=
  "Chunk audio missing for index " ++ decRepr idx

/-- The `while True` loop of `_transcribe_with_chunking` (transcribe.py lines
402-433), with explicit fuel (the Boolean result is `true` when the loop
exited via its `break`, i.e. no eligible chunk remained).  `clock` supplies
the successive `datetime.utcnow()` readings. -/
def chunkLoop (m : CheckpointManager) (env : LoopEnv) (clock : Nat → String) :
    Nat → Nat → LoopState → LoopState × Bool
  | _, 0, st => (st, false)
  | t, fuel + 1, st =>
    match claimNextChunk m st.db (clock t) with
    | (none, db1) => ({ st with db := db1 }, true)
    | (some spec, db1) =>
        let idx := spec.1
        if env.chunkAudioPresent idx = false then
          chunkLoop m env clock (t + 2) fuel
            { db := markChunkFailed m db1 idx (chunkMissingMsg idx) true
                (clock (t + 1)),
              artifacts := st.artifacts }
        else
          let text := pyStrip (env.engineText idx)
          let written := writeChunkArtifact st.artifacts env.chunkDir idx text
          chunkLoop m env clock (t + 2) fuel
            { db := markChunkDone m db1 idx written.2.1 written.2.2
                (clock (t + 1)),
              artifacts := written.1 }

/-- A claim-only driver: repeatedly call `claim_next_chunk`, collecting the
returned descriptors, stopping at the first `None` (or when fuel runs out). -/
def claimRun (m : CheckpointManager) (clock : Nat → String) :
    Nat → Nat → DB → List (Nat × ℚ × ℚ × String) × DB
  | _, 0, db => ([], db)
  | t, fuel + 1, db =>
    match claimNextChunk m db (clock t) with
    | (none, db1) => ([], db1)
    | (some r, db1) =>
        let rest := claimRun m clock (t + 1) fuel db1
        (r :: rest.1, rest.2)

/-- `count(chunks where status = done)` restricted to one file: the quantity
the spec requires the `done_chunks` cache to equal at all times. -/
def doneCount (db : DB) (fid : String) : Nat :=
  (db.chunks.filter (fun c =>
    c.fileId = fid && c.status = ChunkStatus.done)).length

/-! ### Helper lemmas -/

theorem string_data_inj {a b : String} (h : a.data = b.data) : a = b := by
  cases a
  cases b
  exact congrArg String.mk h

/-- Distinct chunk indices yield distinct `chunk_id` primary keys (for a fixed
file id). -/
theorem chunkIdFor_inj (fid : Option String) {i j : Nat}
    (h : chunkIdFor fid i = chunkIdFor fid j) : i = j := by
  have hdata := congrArg String.data h
  simp only [chunkIdFor, String.data_append, List.append_assoc] at hdata
  have hlists := List.append_cancel_left (List.append_cancel_left
    (List.append_cancel_left hdata))
  exact decRepr_inj i j (string_data_inj hlists)

theorem foldl_minIndexAcc_some :
    ∀ (l : List ChunkRecord) (b : ChunkRecord),
      ∃ c, l.foldl minIndexAcc (some b) = some c ∧ (c = b ∨ c ∈ l) ∧
        c.chunkIndex ≤ b.chunkIndex ∧ ∀ x ∈ l, c.chunkIndex ≤ x.chunkIndex := by
  intro l
  induction l with
  | nil => exact fun b => ⟨b, rfl, Or.inl rfl, le_refl _, by simp⟩
  | cons a t ih =>
    intro b
    simp only [List.foldl_cons]
    by_cases h : a.chunkIndex < b.chunkIndex
    · obtain ⟨c, hc, hmem, hle, hall⟩ := ih a
      refine ⟨c, by simpa [minIndexAcc, h] using hc, ?_, ?_, ?_⟩
      · rcases hmem with hm | hm
        · exact Or.inr (by simp [hm])
        · exact Or.inr (List.mem_cons_of_mem _ hm)
      · omega
      · intro x hx
        rcases List.mem_cons.mp hx with hx | hx
        · rw [hx]; omega
        · exact hall x hx
    · obtain ⟨c, hc, hmem, hle, hall⟩ := ih b
      refine ⟨c, by simpa [minIndexAcc, h] using hc, ?_, hle, ?_⟩
      · rcases hmem with hm | hm
        · exact Or.inl hm
        · exact Or.inr (List.mem_cons_of_mem _ hm)
      · intro x hx
        rcases List.mem_cons.mp hx with hx | hx
        · rw [hx]; omega
        · exact hall x hx

/-- `selectMinIndex` returns an element of the list with the least
`chunk_index`. -/
theorem selectMinIndex_spec {l : List ChunkRecord} {c : ChunkRecord}
    (h : selectMinIndex l = some c) :
    c ∈ l ∧ ∀ x ∈ l, c.chunkIndex ≤ x.chunkIndex := by
  cases l with
  | nil => simp [selectMinIndex] at h
  | cons a t =>
    obtain ⟨d, hd, hmem, hle, hall⟩ := foldl_minIndexAcc_some t a
    have hform : selectMinIndex (a :: t) = some d := by
      simp only [selectMinIndex, List.foldl_cons]
      simpa [minIndexAcc] using hd
    rw [hform] at h
    obtain rfl : d = c := by injection h
    constructor
    · rcases hmem with hm | hm
      · simp [hm]
      · exact List.mem_cons_of_mem _ hm
    · intro x hx
      rcases List.mem_cons.mp hx with hx | hx
      · rw [hx]; omega
      · exact hall x hx

theorem selectMinIndex_ne_nil {l : List ChunkRecord} (h : l ≠ []) :
    ∃ c, selectMinIndex l = some c := by
  cases l with
  | nil => exact absurd rfl h
  | cons a t =>
    obtain ⟨d, hd, _, _, _⟩ := foldl_minIndexAcc_some t a
    exact ⟨d, by simp only [selectMinIndex, List.foldl_cons]; simpa [minIndexAcc] using hd⟩

/-- Well-formed family of chunk rows: position `i` of the table holds the row
with chunk index `i`, the derived primary key, and the given file id. -/
def GoodFam (fid : String) (N : Nat) (f : Nat → ChunkRecord) : Prop :=
  ∀ i, i < N → (f i).chunkIndex = i ∧ (f i).chunkId = chunkIdFor (some fid) i ∧
    (f i).fileId = fid

theorem goodFam_update (fid : String) (N : Nat) (f : Nat → ChunkRecord)
    (hfam : GoodFam fid N f) (i0 : Nat) (c : ChunkRecord)
    (hidx : c.chunkIndex = (f i0).chunkIndex) (hid : c.chunkId = (f i0).chunkId)
    (hfid : c.fileId = (f i0).fileId) :
    GoodFam fid N (Function.update f i0 c) := by
  intro i hi
  by_cases hii : i = i0
  · subst hii
    obtain ⟨h1, h2, h3⟩ := hfam i hi
    simp [Function.update_same, hidx, hid, hfid, h1, h2, h3]
  · simp only [Function.update_noteq hii]
    exact hfam i hi

/-- Characterization of `claim_next_chunk` on a well-formed table: it returns
`None` (changing nothing) when no chunk is eligible, and otherwise claims
exactly the lowest-index eligible chunk. -/
theorem claimNextChunk_shaped
    (m : CheckpointManager) (jobs : List JobRecord) (files : List FileRecord)
    (fid : String) (N : Nat) (f : Nat → ChunkRecord) (now : String)
    (hopen : m.connOpen = true) (hfid : m.fileId = some fid)
    (hfam : GoodFam fid N f) :
    ((∀ i, i < N → eligibleStatus (f i).status = false) →
      claimNextChunk m ⟨jobs, files, (List.range N).map f⟩ now =
        (none, ⟨jobs, files, (List.range N).map f⟩))
    ∧ (∀ i0, i0 < N → eligibleStatus (f i0).status = true →
        (∀ j, j < i0 → eligibleStatus (f j).status = false) →
        claimNextChunk m ⟨jobs, files, (List.range N).map f⟩ now =
          (some ((f i0).chunkIndex, (f i0).startSeconds, (f i0).endSeconds,
            (f i0).planHash),
           ⟨jobs, files,
             (List.range N).map (Function.update f i0 (claimStamp (f i0) now))⟩)) := by
  have helig : ∀ i, i < N → claimEligible m (f i) = eligibleStatus (f i).status := by
    intro i hi
    obtain ⟨_, _, h3⟩ := hfam i hi
    simp [claimEligible, h3, hfid]
  constructor
  · intro hnone
    have hfilter : ((List.range N).map f).filter (claimEligible m) = [] := by
      rw [List.filter_eq_nil_iff]
      intro a ha
      obtain ⟨i, hi, rfl⟩ := List.mem_map.mp ha
      have hiN := List.mem_range.mp hi
      simp [helig i hiN, hnone i hiN]
    simp [claimNextChunk, hopen, hfilter, selectMinIndex]
  · intro i0 hi0 helig0 hmin
    have hmem : f i0 ∈ ((List.range N).map f).filter (claimEligible m) := by
      rw [List.mem_filter]
      exact ⟨List.mem_map.mpr ⟨i0, List.mem_range.mpr hi0, rfl⟩,
        by rw [helig i0 hi0]; exact helig0⟩
    obtain ⟨c, hc⟩ := selectMinIndex_ne_nil (List.ne_nil_of_mem hmem)
    obtain ⟨hcmem, hcall⟩ := selectMinIndex_spec hc
    obtain ⟨i, hiN', rfl⟩ := List.mem_map.mp (List.mem_filter.mp hcmem).1
    have hiN := List.mem_range.mp hiN'
    have hielig : eligibleStatus (f i).status = true := by
      have := (List.mem_filter.mp hcmem).2
      rwa [helig i hiN] at this
    have hle : (f i).chunkIndex ≤ (f i0).chunkIndex := hcall _ hmem
    have hii0 : i = i0 := by
      have hidx_i := (hfam i hiN).1
      have hidx_i0 := (hfam i0 hi0).1
      rw [hidx_i, hidx_i0] at hle
      by_contra hne
      have hlt : i0 < i := by
        rcases Nat.lt_or_ge i i0 with hlt | hge
        · exact absurd hielig (by simp [hmin i hlt])
        · omega
      omega
    subst hii0
    have hupd :
        ((List.range N).map f).map (fun c =>
            if c.chunkId = (f i).chunkId then claimStamp c now else c) =
          (List.range N).map (Function.update f i (claimStamp (f i) now)) := by
      rw [List.map_map]
      apply List.map_congr_left
      intro k hk
      have hkN := List.mem_range.mp hk
      by_cases hki : k = i
      · subst hki
        simp [Function.update_same]
      · have hne : (f k).chunkId ≠ (f i).chunkId := by
          rw [(hfam k hkN).2.1, (hfam i hiN).2.1]
          intro hcontra
          exact hki (chunkIdFor_inj _ hcontra)
        simp [Function.comp, hne, Function.update_noteq hki]
    simp only [claimNextChunk, hopen, Bool.not_true, Bool.false_eq_true,
      if_false, hc]
    rw [hupd]

/-- Updating the single row whose `chunk_id` matches the derived key of index
`idx` is, on a well-formed table, a pointwise update at position `idx`. -/
theorem map_update_by_id (fid : String) (N : Nat) (f : Nat → ChunkRecord)
    (hfam : GoodFam fid N f) (idx : Nat) (hidx : idx < N)
    (F : ChunkRecord → ChunkRecord) :
    ((List.range N).map f).map (fun c =>
        if c.chunkId = chunkIdFor (some fid) idx then F c else c) =
      (List.range N).map (Function.update f idx (F (f idx))) := by
  rw [List.map_map]
  apply List.map_congr_left
  intro k hk
  have hkN := List.mem_range.mp hk
  by_cases hki : k = idx
  · subst hki
    simp [Function.comp, (hfam k hkN).2.1, Function.update_same]
  · have hne : (f k).chunkId ≠ chunkIdFor (some fid) idx := by
      rw [(hfam k hkN).2.1]
      intro hcontra
      exact hki (chunkIdFor_inj _ hcontra)
    simp [Function.comp, hne, Function.update_noteq hki]

/-- `mark_chunk_failed` on a well-formed table updates exactly the row of the
given index. -/
theorem markChunkFailed_shaped (m : CheckpointManager) (jobs : List JobRecord)
    (files : List FileRecord) (fid : String) (N : Nat) (f : Nat → ChunkRecord)
    (idx : Nat) (err : String) (perm : Bool) (now : String)
    (hopen : m.connOpen = true) (hfid : m.fileId = some fid)
    (hfam : GoodFam fid N f) (hidx : idx < N) :
    markChunkFailed m ⟨jobs, files, (List.range N).map f⟩ idx err perm now =
      ⟨jobs, files,
       (List.range N).map (Function.update f idx
         { f idx with
             status := if perm then ChunkStatus.permanentFailed
               else ChunkStatus.retryableFailed,
             lastError := some err, updatedAt := now })⟩ := by
  simp only [markChunkFailed, hopen, Bool.not_true, Bool.false_eq_true, if_false]
  rw [hfid]
  rw [map_update_by_id fid N f hfam idx hidx]

/-- `mark_chunk_done` on a well-formed table updates exactly the row of the
given index, and bumps `done_chunks` on every file row matching the manager's
file id. -/
theorem markChunkDone_shaped (m : CheckpointManager) (jobs : List JobRecord)
    (files : List FileRecord) (fid : String) (N : Nat) (f : Nat → ChunkRecord)
    (idx : Nat) (uri sha now : String)
    (hopen : m.connOpen = true) (hfid : m.fileId = some fid)
    (hfam : GoodFam fid N f) (hidx : idx < N) :
    markChunkDone m ⟨jobs, files, (List.range N).map f⟩ idx uri sha now =
      ⟨jobs,
       files.map (fun fr =>
         if some fr.fileId = m.fileId then
           { fr with doneChunks := fr.doneChunks + 1, updatedAt := now }
         else fr),
       (List.range N).map (Function.update f idx
         { f idx with
             status := ChunkStatus.done, transcriptUri := some uri,
             transcriptSha256 := some sha, completedAt := some now,
             updatedAt := now })⟩ := by
  simp only [markChunkDone, hopen, Bool.not_true, Bool.false_eq_true, if_false]
  rw [hfid]
  rw [map_update_by_id fid N f hfam idx hidx]

theorem claimRun_succ (m : CheckpointManager) (clock : Nat → String)
    (t fuel : Nat) (db : DB) :
    claimRun m clock t (fuel + 1) db =
      match claimNextChunk m db (clock t) with
      | (none, db1) => ([], db1)
      | (some r, db1) =>
          (r :: (claimRun m clock (t + 1) fuel db1).1,
           (claimRun m clock (t + 1) fuel db1).2) := rfl

/-- Driving the claim loop over a table whose first `cursor` chunks are all
ineligible and whose remaining chunks are all pending returns exactly the
indices `cursor, cursor + 1, …, N - 1` in ascending order. -/
theorem claimRun_shaped (m : CheckpointManager) (clock : Nat → String)
    (fid : String) (N : Nat)
    (hopen : m.connOpen = true) (hfid : m.fileId = some fid) :
    ∀ (n cursor : Nat) (f : Nat → ChunkRecord) (jobs : List JobRecord)
      (files : List FileRecord) (t : Nat),
      cursor + n = N → GoodFam fid N f →
      (∀ i, i < cursor → eligibleStatus (f i).status = false) →
      (∀ i, cursor ≤ i → i < N → (f i).status = ChunkStatus.pending) →
      (claimRun m clock t (n + 1) ⟨jobs, files, (List.range N).map f⟩).1.map
          (fun r => r.1) =
        List.range' cursor n := by
  intro n
  induction n with
  | zero =>
    intro cursor f jobs files t hcn hfam hdone _
    have hnone := (claimNextChunk_shaped m jobs files fid N f (clock t)
      hopen hfid hfam).1 (fun i hi => hdone i (by omega))
    simp [claimRun, hnone]
  | succ n ih =>
    intro cursor f jobs files t hcn hfam hdone hpend
    have hcN : cursor < N := by omega
    have hclaim := (claimNextChunk_shaped m jobs files fid N f (clock t)
      hopen hfid hfam).2 cursor hcN
      (by rw [hpend cursor (le_refl _) hcN]; rfl)
      (fun j hj => hdone j hj)
    have hidx := (hfam cursor hcN).1
    set f1 := Function.update f cursor (claimStamp (f cursor) (clock t)) with hf1
    have hfam1 : GoodFam fid N f1 :=
      goodFam_update fid N f hfam cursor _ rfl rfl rfl
    have hih := ih (cursor + 1) f1 jobs files (t + 1) (by omega) hfam1
      (fun i hi => by
        by_cases hic : i = cursor
        · subst hic
          simp [hf1, Function.update_same, claimStamp, eligibleStatus]
        · rw [hf1, Function.update_noteq hic]
          exact hdone i (by omega))
      (fun i hi hiN => by
        have hic : i ≠ cursor := by omega
        rw [hf1, Function.update_noteq hic]
        exact hpend i (by omega) hiN)
    rw [claimRun_succ, hclaim]
    simp only [List.map_cons, hih, hidx]
    rw [List.range'_succ]

theorem chunkLoop_succ (m : CheckpointManager) (env : LoopEnv)
    (clock : Nat → String) (t fuel : Nat) (st : LoopState) :
    chunkLoop m env clock t (fuel + 1) st =
      match claimNextChunk m st.db (clock t) with
      | (none, db1) => ({ st with db := db1 }, true)
      | (some spec, db1) =>
          if env.chunkAudioPresent spec.1 = false then
            chunkLoop m env clock (t + 2) fuel
              { db := markChunkFailed m db1 spec.1 (chunkMissingMsg spec.1)
                  true (clock (t + 1)),
                artifacts := st.artifacts }
          else
            chunkLoop m env clock (t + 2) fuel
              { db := markChunkDone m db1 spec.1
                  (writeChunkArtifact st.artifacts env.chunkDir spec.1
                    (pyStrip (env.engineText spec.1))).2.1
                  (writeChunkArtifact st.artifacts env.chunkDir spec.1
                    (pyStrip (env.engineText spec.1))).2.2
                  (clock (t + 1)),
                artifacts := (writeChunkArtifact st.artifacts env.chunkDir
                  spec.1 (pyStrip (env.engineText spec.1))).1 } := rfl

/-- The processing loop on a table whose first `cursor` chunks are already
settled (ineligible) and whose remaining chunks are pending: it terminates by
exhausting the eligible chunks, marks every remaining chunk with a present
audio segment `done` (writing its artifact), marks every remaining chunk with
a missing audio segment `permanent_failed` with the missing-input error, and
leaves rows and artifacts below the cursor untouched. -/
theorem chunkLoop_shaped (m : CheckpointManager) (env : LoopEnv)
    (clock : Nat → String) (fid : String) (N : Nat)
    (hopen : m.connOpen = true) (hfid : m.fileId = some fid) :
    ∀ (n cursor : Nat) (f : Nat → ChunkRecord) (jobs : List JobRecord)
      (files : List FileRecord) (arts : Nat → Option String) (t : Nat),
      cursor + n = N → GoodFam fid N f →
      (∀ i, i < cursor → eligibleStatus (f i).status = false) →
      (∀ i, cursor ≤ i → i < N → (f i).status = ChunkStatus.pending) →
      ∃ (g : Nat → ChunkRecord) (files2 : List FileRecord)
        (arts2 : Nat → Option String),
        chunkLoop m env clock t (n + 1)
            ⟨⟨jobs, files, (List.range N).map f⟩, arts⟩ =
          (⟨⟨jobs, files2, (List.range N).map g⟩, arts2⟩, true) ∧
        GoodFam fid N g ∧
        (∀ i, i < cursor → g i = f i) ∧
        (∀ i, i < cursor → arts2 i = arts i) ∧
        (∀ i, cursor ≤ i → i < N →
          (env.chunkAudioPresent i = true →
            (g i).status = ChunkStatus.done ∧
            arts2 i = some (pyStrip (env.engineText i))) ∧
          (env.chunkAudioPresent i = false →
            (g i).status = ChunkStatus.permanentFailed ∧
            (g i).lastError = some (chunkMissingMsg i))) := by
  intro n
  induction n with
  | zero =>
    intro cursor f jobs files arts t hcn hfam hdone _
    have hnone := (claimNextChunk_shaped m jobs files fid N f (clock t)
      hopen hfid hfam).1 (fun i hi => hdone i (by omega))
    refine ⟨f, files, arts, ?_, hfam, fun i _ => rfl, fun i _ => rfl,
      fun i hci hiN => absurd hiN (by omega)⟩
    rw [chunkLoop_succ]
    simp only [hnone]
  | succ n ih =>
    intro cursor f jobs files arts t hcn hfam hdone hpend
    have hcN : cursor < N := by omega
    have hclaim := (claimNextChunk_shaped m jobs files fid N f (clock t)
      hopen hfid hfam).2 cursor hcN
      (by rw [hpend cursor (le_refl _) hcN]; rfl)
      (fun j hj => hdone j hj)
    have hidx := (hfam cursor hcN).1
    set f1 := Function.update f cursor (claimStamp (f cursor) (clock t)) with hf1
    have hfam1 : GoodFam fid N f1 :=
      goodFam_update fid N f hfam cursor _ rfl rfl rfl
    have hf1c : f1 cursor = claimStamp (f cursor) (clock t) :=
      Function.update_same _ _ _
    have hf1ne : ∀ i, i ≠ cursor → f1 i = f i := fun i hi =>
      Function.update_noteq hi _ _
    rw [chunkLoop_succ]
    simp only [hclaim, hidx]
    by_cases haud : env.chunkAudioPresent cursor = false
    · rw [if_pos haud]
      rw [markChunkFailed_shaped m jobs files fid N f1 cursor
        (chunkMissingMsg cursor) true (clock (t + 1)) hopen hfid hfam1 hcN]
      set c2 : ChunkRecord :=
        { f1 cursor with
            status := if true then ChunkStatus.permanentFailed
              else ChunkStatus.retryableFailed,
            lastError := some (chunkMissingMsg cursor),
            updatedAt := clock (t + 1) } with hc2
      set f2 := Function.update f1 cursor c2 with hf2
      have hfam2 : GoodFam fid N f2 :=
        goodFam_update fid N f1 hfam1 cursor c2 rfl rfl rfl
      have hf2c : f2 cursor = c2 := Function.update_same _ _ _
      have hf2ne : ∀ i, i ≠ cursor → f2 i = f i := fun i hi => by
        rw [hf2, Function.update_noteq hi, hf1ne i hi]
      have hc2status : c2.status = ChunkStatus.permanentFailed := rfl
      obtain ⟨g, files2, arts2, hrun, hg, hbelow, hartsb, hproc⟩ :=
        ih (cursor + 1) f2 jobs files arts (t + 2) (by omega) hfam2
          (fun i hi => by
            by_cases hic : i = cursor
            · subst hic
              rw [hf2c]
              simp [hc2status, eligibleStatus]
            · rw [hf2ne i hic]
              exact hdone i (by omega))
          (fun i hi hiN => by
            rw [hf2ne i (by omega)]
            exact hpend i (by omega) hiN)
      refine ⟨g, files2, arts2, hrun, hg, ?_, ?_, ?_⟩
      · intro i hi
        rw [hbelow i (by omega), hf2ne i (by omega)]
      · intro i hi
        exact hartsb i (by omega)
      · intro i hci hiN
        by_cases hic : i = cursor
        · subst hic
          constructor
          · intro hpres
            rw [hpres] at haud
            exact absurd haud (by simp)
          · intro _
            have hgc : g i = c2 := by
              rw [hbelow i (by omega), hf2c]
            rw [hgc]
            exact ⟨hc2status, rfl⟩
        · exact hproc i (by omega) hiN
    · rw [if_neg haud]
      have hpres : env.chunkAudioPresent cursor = true := by
        cases hcase : env.chunkAudioPresent cursor
        · exact absurd hcase haud
        · rfl
      simp only [writeChunkArtifact]
      rw [markChunkDone_shaped m jobs files fid N f1 cursor
        (chunkArtifactPath env.chunkDir cursor)
        (sha256Hex (pyStrip (env.engineText cursor))) (clock (t + 1))
        hopen hfid hfam1 hcN]
      set c2 : ChunkRecord :=
        { f1 cursor with
            status := ChunkStatus.done,
            transcriptUri := some (chunkArtifactPath env.chunkDir cursor),
            transcriptSha256 := some (sha256Hex (pyStrip (env.engineText cursor))),
            completedAt := some (clock (t + 1)),
            updatedAt := clock (t + 1) } with hc2
      set f2 := Function.update f1 cursor c2 with hf2
      set files1 := files.map (fun fr =>
        if some fr.fileId = m.fileId then
          { fr with doneChunks := fr.doneChunks + 1, updatedAt := clock (t + 1) }
        else fr) with hfiles1
      set arts1 := Function.update arts cursor
        (some (pyStrip (env.engineText cursor))) with harts1
      have hfam2 : GoodFam fid N f2 :=
        goodFam_update fid N f1 hfam1 cursor c2 rfl rfl rfl
      have hf2c : f2 cursor = c2 := Function.update_same _ _ _
      have hf2ne : ∀ i, i ≠ cursor → f2 i = f i := fun i hi => by
        rw [hf2, Function.update_noteq hi, hf1ne i hi]
      have harts1c : arts1 cursor = some (pyStrip (env.engineText cursor)) :=
        Function.update_same _ _ _
      have harts1ne : ∀ i, i ≠ cursor → arts1 i = arts i := fun i hi =>
        Function.update_noteq hi _ _
      obtain ⟨g, files2, arts2, hrun, hg, hbelow, hartsb, hproc⟩ :=
        ih (cursor + 1) f2 jobs files1 arts1 (t + 2) (by omega) hfam2
          (fun i hi => by
            by_cases hic : i = cursor
            · subst hic
              rw [hf2c]
              simp [hc2, eligibleStatus]
            · rw [hf2ne i hic]
              exact hdone i (by omega))
          (fun i hi hiN => by
            rw [hf2ne i (by omega)]
            exact hpend i (by omega) hiN)
      refine ⟨g, files2, arts2, hrun, hg, ?_, ?_, ?_⟩
      · intro i hi
        rw [hbelow i (by omega), hf2ne i (by omega)]
      · intro i hi
        rw [hartsb i (by omega), harts1ne i (by omega)]
      · intro i hci hiN
        by_cases hic : i = cursor
        · subst hic
          constructor
          · intro _
            have hgc : g i = c2 := by
              rw [hbelow i (by omega), hf2c]
            refine ⟨by rw [hgc], ?_⟩
            rw [hartsb i (by omega), harts1c]
          · intro hmiss
            rw [hmiss] at hpres
            exact absurd hpres (by simp)
        · exact hproc i (by omega) hiN

/-! ### Registration lemmas -/

theorem registerOne_mono (m : CheckpointManager) (now : String) (db : DB)
    (s : ChunkSpec) (cid : String)
    (h : db.chunks.any (fun c => c.chunkId = cid) = true) :
    ((registerOne m now db s).chunks.any (fun c => c.chunkId = cid)) = true := by
  unfold registerOne
  by_cases hc : db.chunks.any
      (fun c => c.chunkId = chunkIdFor m.fileId s.index) = true
  · simpa [hc] using h
  · simp only [Bool.not_eq_true] at hc
    simp [hc, List.any_append, h]

theorem registerOne_covers (m : CheckpointManager) (now : String) (db : DB)
    (s : ChunkSpec) :
    ((registerOne m now db s).chunks.any
      (fun c => c.chunkId = chunkIdFor m.fileId s.index)) = true := by
  unfold registerOne
  by_cases hc : db.chunks.any
      (fun c => c.chunkId = chunkIdFor m.fileId s.index) = true
  · simp [hc]
  · simp only [Bool.not_eq_true] at hc
    simp [hc, List.any_append]

theorem registerChunks_mono (m : CheckpointManager) (now : String) :
    ∀ (specs : List ChunkSpec) (db : DB) (cid : String),
      db.chunks.any (fun c => c.chunkId = cid) = true →
      ((registerChunks m db specs now).chunks.any
        (fun c => c.chunkId = cid)) = true := by
  intro specs
  induction specs with
  | nil => intro db cid h; exact h
  | cons s rest ih =>
    intro db cid h
    simp only [registerChunks, List.foldl_cons]
    exact ih (registerOne m now db s) cid (registerOne_mono m now db s cid h)

theorem registerChunks_covers (m : CheckpointManager) (now : String) :
    ∀ (specs : List ChunkSpec) (db : DB) (s : ChunkSpec), s ∈ specs →
      ((registerChunks m db specs now).chunks.any
        (fun c => c.chunkId = chunkIdFor m.fileId s.index)) = true := by
  intro specs
  induction specs with
  | nil => intro db s hs; exact absurd hs (by simp)
  | cons a rest ih =>
    intro db s hs
    simp only [registerChunks, List.foldl_cons]
    rcases List.mem_cons.mp hs with h | h
    · subst h
      exact registerChunks_mono m now rest (registerOne m now db s) _
        (registerOne_covers m now db s)
    · exact ih (registerOne m now db a) s h

theorem registerChunks_skip (m : CheckpointManager) (now : String) :
    ∀ (specs : List ChunkSpec) (db : DB),
      (∀ s ∈ specs, db.chunks.any
        (fun c => c.chunkId = chunkIdFor m.fileId s.index) = true) →
      registerChunks m db specs now = db := by
  intro specs
  induction specs with
  | nil => intro db _; rfl
  | cons a rest ih =>
    intro db hall
    simp only [registerChunks, List.foldl_cons]
    have hstep : registerOne m now db a = db := by
      unfold registerOne
      simp [hall a (by simp)]
    rw [hstep]
    exact ih db (fun s hs => hall s (by simp [hs]))

theorem registerChunks_cons (m : CheckpointManager) (db : DB) (a : ChunkSpec)
    (rest : List ChunkSpec) (now : String) :
    registerChunks m db (a :: rest) now =
      registerChunks m (registerOne m now db a) rest now := rfl

theorem registerChunks_appendOnly (m : CheckpointManager) (now : String) :
    ∀ (specs : List ChunkSpec) (db : DB),
      (registerChunks m db specs now).jobs = db.jobs ∧
      (registerChunks m db specs now).files = db.files ∧
      ∃ newRows : List ChunkRecord,
        (registerChunks m db specs now).chunks = db.chunks ++ newRows ∧
        ∀ c ∈ newRows, c.status = ChunkStatus.pending ∧
          db.chunks.any (fun c2 => c2.chunkId = c.chunkId) = false := by
  intro specs
  induction specs with
  | nil =>
    intro db
    exact ⟨rfl, rfl, [], by simp [registerChunks], by simp⟩
  | cons a rest ih =>
    intro db
    rw [registerChunks_cons]
    by_cases hc : db.chunks.any
        (fun c => c.chunkId = chunkIdFor m.fileId a.index) = true
    · have hstep : registerOne m now db a = db := by
        unfold registerOne
        simp [hc]
      rw [hstep]
      exact ih db
    · simp only [Bool.not_eq_true] at hc
      have hstep : registerOne m now db a =
          { db with chunks := db.chunks ++
            [{ chunkId := chunkIdFor m.fileId a.index, fileId := optStr m.fileId,
               chunkIndex := a.index, startSeconds := a.startSeconds,
               endSeconds := a.endSeconds, planHash := a.planHash,
               status := ChunkStatus.pending, updatedAt := now }] } := by
        unfold registerOne
        simp [hc]
      rw [hstep]
      obtain ⟨hjobs, hfiles, newRows, hchunks, hnew⟩ := ih
        { db with chunks := db.chunks ++
          [{ chunkId := chunkIdFor m.fileId a.index, fileId := optStr m.fileId,
             chunkIndex := a.index, startSeconds := a.startSeconds,
             endSeconds := a.endSeconds, planHash := a.planHash,
             status := ChunkStatus.pending, updatedAt := now }] }
      refine ⟨hjobs, hfiles,
        { chunkId := chunkIdFor m.fileId a.index, fileId := optStr m.fileId,
          chunkIndex := a.index, startSeconds := a.startSeconds,
          endSeconds := a.endSeconds, planHash := a.planHash,
          status := ChunkStatus.pending, updatedAt := now } :: newRows,
        by rw [hchunks]; simp, ?_⟩
      intro c hcmem
      rcases List.mem_cons.mp hcmem with hcm | hcm
      · subst hcm
        exact ⟨rfl, hc⟩
      · obtain ⟨hstat, habs⟩ := hnew c hcm
        refine ⟨hstat, ?_⟩
        simp only [List.any_append, Bool.or_eq_false_iff] at habs
        exact habs.1

/-! ### Reassembly and counting helpers -/

theorem filterMap_congr_mem {α β : Type} (f g : α → Option β) :
    ∀ l : List α, (∀ a ∈ l, f a = g a) → l.filterMap f = l.filterMap g := by
  intro l
  induction l with
  | nil => intro _; rfl
  | cons a t ih =>
    intro h
    simp only [List.filterMap_cons, h a (by simp)]
    rw [ih (fun x hx => h x (by simp [hx]))]

/-- The part collection of reassembly is: keep the present artifacts, trim
them, drop the empty ones. -/
theorem filterMap_trimmedPart (l : List (Option String)) :
    l.filterMap trimmedPart =
      ((l.filterMap id).map pyStrip).filter (fun t => t != "") := by
  induction l with
  | nil => rfl
  | cons a t ih =>
    cases a with
    | none => simpa [trimmedPart] using ih
    | some s =>
      by_cases hs : pyStrip s = ""
      · simp [trimmedPart, hs, ih]
      · simp [trimmedPart, hs, ih]

/-- Whatever `claim_next_chunk` returns came from a row of the table that
passed the eligibility filter. -/
theorem claimNextChunk_some_eligible (m : CheckpointManager) (db : DB)
    (now : String) (r : Nat × ℚ × ℚ × String) (db2 : DB)
    (h : claimNextChunk m db now = (some r, db2)) :
    ∃ c ∈ db.chunks, claimEligible m c = true ∧
      r = (c.chunkIndex, c.startSeconds, c.endSeconds, c.planHash) := by
  by_cases hopen : m.connOpen = true
  · rw [claimNextChunk] at h
    simp only [hopen, Bool.not_true, Bool.false_eq_true, if_false] at h
    cases hsel : selectMinIndex (db.chunks.filter (claimEligible m)) with
    | none =>
      rw [hsel] at h
      exact absurd (congrArg Prod.fst h) (by simp)
    | some row =>
      rw [hsel] at h
      obtain ⟨hmem, _⟩ := selectMinIndex_spec hsel
      obtain ⟨hmem2, helig⟩ := List.mem_filter.mp hmem
      refine ⟨row, hmem2, helig, ?_⟩
      have := congrArg Prod.fst h
      simp only at this
      injection this with hr
      exact hr.symm
  · rw [claimNextChunk] at h
    simp only [Bool.not_eq_true] at hopen
    simp only [hopen, Bool.not_false, if_true] at h
    exact absurd (congrArg Prod.fst h) (by simp)

/-! ### Claim theorems -/

/-- C1: For every open store, `claim_next_chunk` selects the chunk with the
lowest `chunk_index` among those whose status is in
{pending, retryable_failed, abandoned}, transitions exactly that chunk to
running, stamps its `started_at` timestamp, and returns
`(index, start, end, plan_hash)`; it returns nothing when no such chunk
exists.  Consequently, for `N` registered chunks of which the first `K` are
done, successive claims return chunks `K .. N-1` in ascending index order and
never return any chunk whose status is done or permanent_failed. -/
theorem C1_claim_next_chunk (m : CheckpointManager) (jobs : List JobRecord)
    (files : List FileRecord) (fid : String) (N : Nat) (f : Nat → ChunkRecord)
    (hopen : m.connOpen = true) (hfid : m.fileId = some fid)
    (hfam : GoodFam fid N f) :
    (∀ now, (∀ i, i < N → eligibleStatus (f i).status = false) →
      claimNextChunk m ⟨jobs, files, (List.range N).map f⟩ now =
        (none, ⟨jobs, files, (List.range N).map f⟩)) ∧
    (∀ now i0, i0 < N → eligibleStatus (f i0).status = true →
      (∀ j, j < i0 → eligibleStatus (f j).status = false) →
      claimNextChunk m ⟨jobs, files, (List.range N).map f⟩ now =
        (some ((f i0).chunkIndex, (f i0).startSeconds, (f i0).endSeconds,
          (f i0).planHash),
         ⟨jobs, files,
          (List.range N).map (Function.update f i0 (claimStamp (f i0) now))⟩)) ∧
    (∀ (clock : Nat → String) (K t : Nat), K ≤ N →
      (∀ i, i < N → (f i).status =
        (if i < K then ChunkStatus.done else ChunkStatus.pending)) →
      (claimRun m clock t (N - K + 1)
          ⟨jobs, files, (List.range N).map f⟩).1.map (fun r => r.1) =
        List.range' K (N - K)) := by
  refine ⟨fun now hall =>
      (claimNextChunk_shaped m jobs files fid N f now hopen hfid hfam).1 hall,
    fun now i0 hi0 he hmin =>
      (claimNextChunk_shaped m jobs files fid N f now hopen hfid hfam).2
        i0 hi0 he hmin,
    ?_⟩
  intro clock K t hKN hstat
  apply claimRun_shaped m clock fid N hopen hfid (N - K) K f jobs files t
    (by omega) hfam
  · intro i hi
    rw [hstat i (by omega)]
    simp [hi, eligibleStatus]
  · intro i hKi hiN
    rw [hstat i hiN]
    simp [Nat.not_lt.mpr hKi]

/-- Witness for C1: three registered chunks of which the first is done;
successive claims return exactly the indices `[1, 2]`. -/
theorem C1_claim_next_chunk_witness :
    (claimRun ⟨true, "u", "fp", 3, true, "j", some "F"⟩ (fun _ => "t1") 0 3
        ⟨[], [], (List.range 3).map (fun i =>
          ⟨chunkIdFor (some "F") i, "F", i, (i : ℚ), (i : ℚ) + 1, "p",
           (if i < 1 then ChunkStatus.done else ChunkStatus.pending),
           none, none, none, none, none, "t0"⟩)⟩).1.map (fun r => r.1) =
      List.range' 1 2 := by
  have h := (C1_claim_next_chunk ⟨true, "u", "fp", 3, true, "j", some "F"⟩
    [] [] "F" 3 (fun i =>
      ⟨chunkIdFor (some "F") i, "F", i, (i : ℚ), (i : ℚ) + 1, "p",
       (if i < 1 then ChunkStatus.done else ChunkStatus.pending),
       none, none, none, none, none, "t0"⟩)
    rfl rfl (by unfold GoodFam; decide)).2.2 (fun _ => "t1") 1 0 (by omega)
    (by decide)
  exact h

/-- C4: `register_chunks` is idempotent: it inserts a pending row only for
indices with no existing record, never touches jobs, files or existing chunk
rows, and a second call with the same specs changes nothing. -/
theorem C4_register_idempotent (m : CheckpointManager) (db : DB)
    (specs : List ChunkSpec) (now now2 : String) :
    registerChunks m (registerChunks m db specs now) specs now2 =
      registerChunks m db specs now ∧
    (registerChunks m db specs now).jobs = db.jobs ∧
    (registerChunks m db specs now).files = db.files ∧
    ∃ newRows : List ChunkRecord,
      (registerChunks m db specs now).chunks = db.chunks ++ newRows ∧
      ∀ c ∈ newRows, c.status = ChunkStatus.pending ∧
        db.chunks.any (fun c2 => c2.chunkId = c.chunkId) = false := by
  obtain ⟨hjobs, hfiles, hrows⟩ := registerChunks_appendOnly m now specs db
  exact ⟨registerChunks_skip m now2 specs _
      (fun s hs => registerChunks_covers m now specs db s hs),
    hjobs, hfiles, hrows⟩

/-- C8: after `close()`, `claim_next_chunk` returns nothing and the marking
and persisting operations return without modifying any record. -/
theorem C8_closed_noop (m : CheckpointManager) (db : DB)
    (hclosed : m.connOpen = false) :
    (∀ now, claimNextChunk m db now = (none, db)) ∧
    (∀ idx uri sha now, markChunkDone m db idx uri sha now = db) ∧
    (∀ idx err perm now, markChunkFailed m db idx err perm now = db) ∧
    (∀ uri sha now, persistFinalOutput m db uri sha now = db) ∧
    (∀ m2 : CheckpointManager, (closeCheckpoint m2).connOpen = false) := by
  refine ⟨?_, ?_, ?_, ?_, fun m2 => rfl⟩ <;>
    intros <;>
    simp [claimNextChunk, markChunkDone, markChunkFailed, persistFinalOutput,
      hclosed]

/-- Witness for C8: a freshly closed manager's claim call is a no-op. -/
theorem C8_closed_noop_witness :
    claimNextChunk (closeCheckpoint ⟨true, "u", "fp", 1, true, "j", some "F"⟩)
      ⟨[], [], []⟩ "t" = (none, ⟨[], [], []⟩) :=
  (C8_closed_noop (closeCheckpoint ⟨true, "u", "fp", 1, true, "j", some "F"⟩)
    ⟨[], [], []⟩ rfl).1 "t"

/-- The resume branch of `_ensure_file_and_job`: a matching file row plus
`resume` reuses the file id and reconciles running chunks. -/
theorem ensureFileAndJob_resume (m : CheckpointManager) (db : DB)
    (now : String) (frow : FileRecord) (hresume : m.resume = true)
    (hfind : db.files.find? (fun fr =>
      fr.sourceUri = m.sourceUri && fr.fingerprint = m.fingerprint) = some frow) :
    ensureFileAndJob m db now =
      ({ m with fileId := some frow.fileId },
       { db with chunks := db.chunks.map (fun c =>
          if c.fileId = frow.fileId && c.status = ChunkStatus.running then
            { c with status := ChunkStatus.retryableFailed,
                     lastError := some abandonedNote, updatedAt := now }
          else c) }) := by
  unfold ensureFileAndJob
  rw [hfind]
  simp [hresume]

/-- The non-resume path of `_ensure_file_and_job` when a file row with the
derived id already exists: that row is updated in place. -/
theorem ensureFileAndJob_fresh_update (m : CheckpointManager) (db : DB)
    (now : String) (hresume : m.resume = false)
    (hexists : db.files.any (fun fr => fr.fileId = fileIdFor m.sourceUri) = true) :
    ensureFileAndJob m db now =
      ({ m with fileId := some (fileIdFor m.sourceUri) },
       { db with
          jobs := db.jobs.filter (fun j => j.jobId ≠ m.jobId) ++
            [{ jobId := m.jobId, createdAt := now, status := "running",
               updatedAt := now }],
          files := db.files.map (fun fr =>
            if fr.fileId = fileIdFor m.sourceUri then
              { fr with jobId := m.jobId, sourceUri := m.sourceUri,
                        fingerprint := m.fingerprint,
                        totalChunks := m.totalChunks, updatedAt := now }
            else fr) }) := by
  unfold ensureFileAndJob
  cases hfind : db.files.find? (fun fr =>
      fr.sourceUri = m.sourceUri && fr.fingerprint = m.fingerprint) with
  | none =>
    show ensureFileAndJob.ensureFreshFile m db now = _
    unfold ensureFileAndJob.ensureFreshFile
    simp [hexists]
  | some row =>
    rw [hresume]
    show ensureFileAndJob.ensureFreshFile m db now = _
    unfold ensureFileAndJob.ensureFreshFile
    simp [hexists, hresume]

/-- C3: opening with resume=true at a store whose files table matches
(source_uri, fingerprint) reuses that file id, transitions exactly the
running chunks of that file to retryable_failed with the abandonment note,
leaves all other chunks (and the files/jobs tables) unchanged, and the
reconciled status is again eligible for claiming. -/
theorem C3_resume_reconciliation (db : DB) (uri fp jobId now : String)
    (total : Nat) (frow : FileRecord)
    (hfind : db.files.find? (fun fr =>
      fr.sourceUri = uri && fr.fingerprint = fp) = some frow) :
    (openCheckpoint (some db) uri fp total true false jobId now).1.fileId =
      some frow.fileId ∧
    (openCheckpoint (some db) uri fp total true false jobId now).2.jobs =
      db.jobs ∧
    (openCheckpoint (some db) uri fp total true false jobId now).2.files =
      db.files ∧
    (openCheckpoint (some db) uri fp total true false jobId now).2.chunks =
      db.chunks.map (fun c =>
        if c.fileId = frow.fileId && c.status = ChunkStatus.running then
          { c with status := ChunkStatus.retryableFailed,
                   lastError := some abandonedNote, updatedAt := now }
        else c) ∧
    (∀ c ∈ db.chunks,
      (c.fileId = frow.fileId && c.status = ChunkStatus.running) = false →
      c ∈ (openCheckpoint (some db) uri fp total true false jobId now).2.chunks) ∧
    eligibleStatus ChunkStatus.retryableFailed = true := by
  have hopen : openCheckpoint (some db) uri fp total true false jobId now =
      ensureFileAndJob
        { connOpen := true, sourceUri := uri, fingerprint := fp,
          totalChunks := total, resume := true && !false, jobId := jobId,
          fileId := none } db now := rfl
  have h := ensureFileAndJob_resume
    { connOpen := true, sourceUri := uri, fingerprint := fp,
      totalChunks := total, resume := true && !false, jobId := jobId,
      fileId := none } db now frow rfl hfind
  rw [hopen, h]
  refine ⟨rfl, rfl, rfl, rfl, ?_, rfl⟩
  intro c hc hcond
  have himg : (if c.fileId = frow.fileId && c.status = ChunkStatus.running then
      { c with status := ChunkStatus.retryableFailed,
               lastError := some abandonedNote, updatedAt := now }
    else c) = c := by
    simp [hcond]
  exact List.mem_map.mpr ⟨c, hc, himg⟩

/-- Witness for C3: a store holding one matching file with one running and
one done chunk; reopening with resume reuses the file id. -/
theorem C3_resume_reconciliation_witness :
    (openCheckpoint (some ⟨[],
        [⟨"F0", "j0", "u", "fp", 2, 1, none, none, "t0"⟩],
        [⟨"chunk_F0_0", "F0", 0, 0, 1, "p", ChunkStatus.running,
          none, none, none, some "t0", none, "t0"⟩,
         ⟨"chunk_F0_1", "F0", 1, 1, 2, "p", ChunkStatus.done,
          some "a1", some "s1", none, some "t0", some "t0", "t0"⟩]⟩)
      "u" "fp" 2 true false "j2" "t9").1.fileId = some "F0" :=
  (C3_resume_reconciliation ⟨[],
      [⟨"F0", "j0", "u", "fp", 2, 1, none, none, "t0"⟩],
      [⟨"chunk_F0_0", "F0", 0, 0, 1, "p", ChunkStatus.running,
        none, none, none, some "t0", none, "t0"⟩,
       ⟨"chunk_F0_1", "F0", 1, 1, 2, "p", ChunkStatus.done,
        some "a1", some "s1", none, some "t0", some "t0", "t0"⟩]⟩
    "u" "fp" "j2" "t9" 2
    ⟨"F0", "j0", "u", "fp", 2, 1, none, none, "t0"⟩ (by decide)).1

/-- C10: opening with resume=false, reset=false at a location holding a file
row for the same source URI derives the same file id (a hash of the source
URI alone), rewrites only the job_id/source_uri/fingerprint/total_chunks/
updated_at fields of that row (done_chunks and the final-output fields are
preserved), leaves every chunk row untouched, and neither done nor running
chunks are claimable afterwards. -/
theorem C10_no_resume_frame (db : DB) (uri fp : String) (total : Nat)
    (jobId now : String)
    (hexists : db.files.any (fun fr => fr.fileId = fileIdFor uri) = true) :
    (openCheckpoint (some db) uri fp total false false jobId now).1.fileId =
      some (fileIdFor uri) ∧
    (openCheckpoint (some db) uri fp total false false jobId now).1.connOpen =
      true ∧
    (openCheckpoint (some db) uri fp total false false jobId now).2.chunks =
      db.chunks ∧
    (openCheckpoint (some db) uri fp total false false jobId now).2.files =
      db.files.map (fun fr =>
        if fr.fileId = fileIdFor uri then
          { fr with jobId := jobId, sourceUri := uri, fingerprint := fp,
                    totalChunks := total, updatedAt := now }
        else fr) ∧
    (∀ fr : FileRecord,
      ({ fr with jobId := jobId, sourceUri := uri, fingerprint := fp,
                 totalChunks := total, updatedAt := now } :
        FileRecord).doneChunks = fr.doneChunks ∧
      ({ fr with jobId := jobId, sourceUri := uri, fingerprint := fp,
                 totalChunks := total, updatedAt := now } :
        FileRecord).finalOutputUri = fr.finalOutputUri ∧
      ({ fr with jobId := jobId, sourceUri := uri, fingerprint := fp,
                 totalChunks := total, updatedAt := now } :
        FileRecord).finalOutputSha256 = fr.finalOutputSha256) ∧
    (∀ c : ChunkRecord,
      c.status = ChunkStatus.done ∨ c.status = ChunkStatus.running →
      claimEligible (openCheckpoint (some db) uri fp total false false
        jobId now).1 c = false) ∧
    (∀ (db2 : DB) (now2 : String) (r : Nat × ℚ × ℚ × String) (db3 : DB),
      claimNextChunk (openCheckpoint (some db) uri fp total false false
        jobId now).1 db2 now2 = (some r, db3) →
      ∃ c ∈ db2.chunks, c.status ≠ ChunkStatus.done ∧
        c.status ≠ ChunkStatus.running ∧
        r = (c.chunkIndex, c.startSeconds, c.endSeconds, c.planHash)) := by
  have hopen : openCheckpoint (some db) uri fp total false false jobId now =
      ensureFileAndJob
        { connOpen := true, sourceUri := uri, fingerprint := fp,
          totalChunks := total, resume := false && !false, jobId := jobId,
          fileId := none } db now := rfl
  have h := ensureFileAndJob_fresh_update
    { connOpen := true, sourceUri := uri, fingerprint := fp,
      totalChunks := total, resume := false && !false, jobId := jobId,
      fileId := none } db now rfl hexists
  rw [hopen, h]
  refine ⟨rfl, rfl, rfl, rfl, fun fr => ⟨rfl, rfl, rfl⟩, ?_, ?_⟩
  · intro c hc
    rcases hc with hc | hc <;> simp [claimEligible, eligibleStatus, hc]
  · intro db2 now2 r db3 hclaim
    obtain ⟨c, hcmem, helig, hr⟩ :=
      claimNextChunk_some_eligible _ db2 now2 r db3 hclaim
    refine ⟨c, hcmem, ?_, ?_, hr⟩
    · intro hdone
      rw [claimEligible, hdone] at helig
      simp [eligibleStatus] at helig
    · intro hrunning
      rw [claimEligible, hrunning] at helig
      simp [eligibleStatus] at helig

/-- Witness for C10: a store holding a file row for source URI "u" with two
done chunks, reopened without resume: same file id, chunks untouched. -/
theorem C10_no_resume_frame_witness :
    (openCheckpoint (some ⟨[],
        [⟨fileIdFor "u", "j0", "u", "fpOld", 1, 1, none, none, "t0"⟩],
        [⟨"chunk_file_u_0", "file_u", 0, 0, 1, "p", ChunkStatus.done,
          some "a0", some "s0", none, some "t0", some "t0", "t0"⟩]⟩)
      "u" "fpNew" 1 false false "j2" "t9").1.fileId = some (fileIdFor "u") ∧
    (openCheckpoint (some ⟨[],
        [⟨fileIdFor "u", "j0", "u", "fpOld", 1, 1, none, none, "t0"⟩],
        [⟨"chunk_file_u_0", "file_u", 0, 0, 1, "p", ChunkStatus.done,
          some "a0", some "s0", none, some "t0", some "t0", "t0"⟩]⟩)
      "u" "fpNew" 1 false false "j2" "t9").2.chunks =
      [⟨"chunk_file_u_0", "file_u", 0, 0, 1, "p", ChunkStatus.done,
        some "a0", some "s0", none, some "t0", some "t0", "t0"⟩] := by
  have h := C10_no_resume_frame ⟨[],
      [⟨fileIdFor "u", "j0", "u", "fpOld", 1, 1, none, none, "t0"⟩],
      [⟨"chunk_file_u_0", "file_u", 0, 0, 1, "p", ChunkStatus.done,
        some "a0", some "s0", none, some "t0", some "t0", "t0"⟩]⟩
    "u" "fpNew" 1 "j2" "t9" (by decide)
  exact ⟨h.1, h.2.2.1⟩

/-- C5 counterexample: at total duration 0 the planner produces one chunk
spec (`max(1, ...)` in the code), while `ceil(0 / 30) = 0`, so the claimed
count `ceil(total_duration / chunk_length)` is wrong at this input. -/
theorem C5_planner_counterexample :
    (planChunkSpecs 0 30 "es" "base").length = 1 ∧
    Int.toNat ⌈(0 : ℚ) / ((30 : Nat) : ℚ)⌉ = 0 := by
  constructor
  · have hceil : ⌈(0 : ℚ) / ((30 : Nat) : ℚ)⌉ = 0 := by norm_num
    simp [planChunkSpecs, numChunks, hceil]
  · norm_num

/-- C5 amended: the planner produces `max(1, ceil(total / chunk_length))`
chunk specs — which equals `ceil(total / chunk_length)` whenever the total
duration is positive, the only difference being at total duration 0 — and
the spec at index `i` has `start = i * chunk_length` and
`end = min(total, (i + 1) * chunk_length)`. -/
theorem C5_planner_amended (totalDuration : ℚ) (chunkSeconds : Nat)
    (language modelSize : String) (htotal : 0 ≤ totalDuration)
    (hcs : 0 < chunkSeconds) :
    ((planChunkSpecs totalDuration chunkSeconds language modelSize).length =
      max 1 (Int.toNat ⌈totalDuration / (chunkSeconds : ℚ)⌉)) ∧
    (0 < totalDuration →
      (planChunkSpecs totalDuration chunkSeconds language modelSize).length =
        Int.toNat ⌈totalDuration / (chunkSeconds : ℚ)⌉) ∧
    (∀ i (hi : i <
        (planChunkSpecs totalDuration chunkSeconds language modelSize).length),
      ((planChunkSpecs totalDuration chunkSeconds language
          modelSize).get ⟨i, hi⟩).index = i ∧
      ((planChunkSpecs totalDuration chunkSeconds language
          modelSize).get ⟨i, hi⟩).startSeconds =
        (i : ℚ) * (chunkSeconds : ℚ) ∧
      ((planChunkSpecs totalDuration chunkSeconds language
          modelSize).get ⟨i, hi⟩).endSeconds =
        min totalDuration (((i : ℚ) + 1) * (chunkSeconds : ℚ))) := by
  refine ⟨by simp [planChunkSpecs, numChunks], ?_, ?_⟩
  · intro hpos
    have hcsq : (0 : ℚ) < (chunkSeconds : ℚ) := by exact_mod_cast hcs
    have hdivpos : 0 < totalDuration / (chunkSeconds : ℚ) :=
      div_pos hpos hcsq
    have hceil : 0 < ⌈totalDuration / (chunkSeconds : ℚ)⌉ :=
      Int.ceil_pos.mpr hdivpos
    have h1 : 1 ≤ Int.toNat ⌈totalDuration / (chunkSeconds : ℚ)⌉ := by omega
    simp [planChunkSpecs, numChunks, Nat.max_eq_right h1]
  · intro i hi
    have hlen : (planChunkSpecs totalDuration chunkSeconds language
        modelSize).length = numChunks totalDuration chunkSeconds := by
      simp [planChunkSpecs]
    have hget : (planChunkSpecs totalDuration chunkSeconds language
        modelSize).get ⟨i, hi⟩ =
        plannedSpec totalDuration chunkSeconds language modelSize i := by
      simp [planChunkSpecs]
    rw [hget]
    exact ⟨rfl, rfl, rfl⟩

/-- Witness for C5: a 90-second file with 30-second chunks plans exactly
3 chunks. -/
theorem C5_planner_amended_witness :
    (planChunkSpecs 90 30 "es" "base").length = 3 := by
  have h := (C5_planner_amended 90 30 "es" "base" (by norm_num)
    (by norm_num)).2.1 (by norm_num)
  rw [h, show (90 : ℚ) / ((30 : Nat) : ℚ) = ((3 : ℕ) : ℚ) by norm_num,
    Int.ceil_natCast]
  rfl

/-- C6 counterexample: with artifact texts "a", "", "c" reassembly yields
"a\nc" — the artifact whose trimmed text is empty is dropped entirely — not
the "a\n\nc" produced by joining the trimmed texts of all read artifacts
with a newline, so the claimed unconditional join is wrong. -/
theorem C6_reassembly_counterexample :
    finalizeText (fun i => [some "a", some "", some "c"].getD i none) 3 =
      "a\nc" ∧
    String.intercalate "\n"
      (((List.range 3).filterMap
        (fun i => [some "a", some "", some "c"].getD i none)).map pyStrip) =
      "a\n\nc" ∧
    ("a\nc" : String) ≠ "a\n\nc" := by
  refine ⟨by decide, by decide, by decide⟩

/-- C6 amended: reassembly reads artifacts `0 .. total_chunks - 1` in index
order, skips missing artifact files, and joins with a single newline the
trimmed texts of the read artifacts THAT ARE NONEMPTY after trimming; the
output is a function of the artifact contents alone, and for artifacts
"a", "b", "c" it produces "a\nb\nc". -/
theorem C6_reassembly_amended (artifacts : Nat → Option String)
    (totalChunks : Nat) :
    finalizeText artifacts totalChunks =
      String.intercalate "\n"
        ((((List.range totalChunks).filterMap artifacts).map pyStrip).filter
          (fun t => t != "")) ∧
    finalizeText (fun i => [some "a", some "b", some "c"].getD i none) 3 =
      "a\nb\nc" := by
  constructor
  · unfold finalizeText collectParts
    have h1 : (List.range totalChunks).filterMap
        (fun idx => trimmedPart (artifacts idx)) =
        ((List.range totalChunks).map artifacts).filterMap trimmedPart := by
      rw [List.filterMap_map]
      rfl
    have h2 : ((List.range totalChunks).map artifacts).filterMap id =
        (List.range totalChunks).filterMap artifacts := by
      rw [List.filterMap_map]
      rfl
    rw [h1, filterMap_trimmedPart, h2]
  · decide

/-- C9: a chunk whose artifact trims to the empty string contributes neither
text nor a newline separator: removing that artifact entirely leaves the
final transcript unchanged, and artifacts "a", "", "c" yield "a\nc". -/
theorem C9_empty_artifact_omitted (artifacts : Nat → Option String)
    (totalChunks i : Nat) (hi : i < totalChunks)
    (hempty : ∃ s, artifacts i = some s ∧ pyStrip s = "") :
    finalizeText artifacts totalChunks =
      finalizeText (Function.update artifacts i none) totalChunks ∧
    finalizeText (fun j => [some "a", some "", some "c"].getD j none) 3 =
      "a\nc" := by
  constructor
  · unfold finalizeText collectParts
    congr 1
    apply filterMap_congr_mem
    intro j _
    by_cases hji : j = i
    · subst hji
      obtain ⟨s, hs, hstrip⟩ := hempty
      simp [hs, trimmedPart, hstrip, Function.update_same]
    · simp [Function.update_noteq hji]
  · decide

/-- Witness for C9: dropping the empty-trimming artifact at index 1 leaves
the reassembled transcript unchanged. -/
theorem C9_empty_artifact_omitted_witness :
    finalizeText (fun j => [some "a", some "", some "c"].getD j none) 3 =
      finalizeText (Function.update
        (fun j => [some "a", some "", some "c"].getD j none) 1 none) 3 :=
  (C9_empty_artifact_omitted (fun j => [some "a", some "", some "c"].getD j none)
    3 1 (by omega) ⟨"", rfl, rfl⟩).1

/-- C2 counterexample: a state reached purely through the store API in which
`mark_chunk_done` on an already-done index drives the `done_chunks` counter
to 2 while only one chunk row is done, so the counter/count equality is not
preserved for every index. -/
theorem C2_done_counter_counterexample :
    (let opened := openCheckpoint none "u" "fp" 1 true false "j" "t0"
     let db1 := registerChunks opened.1 opened.2
       [⟨0, 0, 30, "ph"⟩] "t1"
     let db2 := (claimNextChunk opened.1 db1 "t2").2
     let db3 := markChunkDone opened.1 db2 0 "a0" "s0" "t3"
     let db4 := markChunkDone opened.1 db3 0 "a0" "s0" "t4"
     (∀ fr ∈ db3.files, fr.doneChunks = doneCount db3 (fileIdFor "u")) ∧
     doneCount db4 (fileIdFor "u") = 1 ∧
     ∃ fr ∈ db4.files, fr.fileId = fileIdFor "u" ∧ fr.doneChunks = 2) := by
  decide

/-- C2 amended: `mark_chunk_done` preserves the equality between the File
row's `done_chunks` counter and `count(chunks where status = done)` whenever
the target index has exactly one registered chunk row, that row belongs to
the file and is not already done; an already-done or unregistered index
instead increments the counter without changing the count. -/
theorem C2_done_counter_amended (m : CheckpointManager) (db : DB)
    (fid : String) (idx : Nat) (uri sha now : String)
    (pre post : List ChunkRecord) (c0 : ChunkRecord)
    (hopen : m.connOpen = true) (hfid : m.fileId = some fid)
    (hsplit : db.chunks = pre ++ c0 :: post)
    (hc0id : c0.chunkId = chunkIdFor (some fid) idx)
    (hc0file : c0.fileId = fid)
    (hc0notdone : c0.status ≠ ChunkStatus.done)
    (hunique : ∀ c ∈ pre ++ post, c.chunkId ≠ chunkIdFor (some fid) idx)
    (hinv : ∀ fr ∈ db.files, fr.fileId = fid →
      fr.doneChunks = doneCount db fid) :
    ∀ fr ∈ (markChunkDone m db idx uri sha now).files, fr.fileId = fid →
      fr.doneChunks = doneCount (markChunkDone m db idx uri sha now) fid := by
  have hchunks : (markChunkDone m db idx uri sha now).chunks =
      db.chunks.map (fun c =>
        if c.chunkId = chunkIdFor (some fid) idx then
          { c with status := ChunkStatus.done, transcriptUri := some uri,
                   transcriptSha256 := some sha, completedAt := some now,
                   updatedAt := now }
        else c) := by
    simp [markChunkDone, hopen, hfid]
  have hfiles : (markChunkDone m db idx uri sha now).files =
      db.files.map (fun fr =>
        if some fr.fileId = m.fileId then
          { fr with doneChunks := fr.doneChunks + 1, updatedAt := now }
        else fr) := by
    simp [markChunkDone, hopen]
  have hpre : pre.map (fun c =>
      if c.chunkId = chunkIdFor (some fid) idx then
        { c with status := ChunkStatus.done, transcriptUri := some uri,
                 transcriptSha256 := some sha, completedAt := some now,
                 updatedAt := now }
      else c) = pre := by
    have h1 := List.map_congr_left (l := pre)
      (f := fun c =>
        if c.chunkId = chunkIdFor (some fid) idx then
          { c with status := ChunkStatus.done, transcriptUri := some uri,
                   transcriptSha256 := some sha, completedAt := some now,
                   updatedAt := now }
        else c) (g := id)
      (fun c hc => by
        simp [hunique c (List.mem_append_left _ hc)])
    rw [h1, List.map_id]
  have hpost : post.map (fun c =>
      if c.chunkId = chunkIdFor (some fid) idx then
        { c with status := ChunkStatus.done, transcriptUri := some uri,
                 transcriptSha256 := some sha, completedAt := some now,
                 updatedAt := now }
      else c) = post := by
    have h1 := List.map_congr_left (l := post)
      (f := fun c =>
        if c.chunkId = chunkIdFor (some fid) idx then
          { c with status := ChunkStatus.done, transcriptUri := some uri,
                   transcriptSha256 := some sha, completedAt := some now,
                   updatedAt := now }
        else c) (g := id)
      (fun c hc => by
        simp [hunique c (List.mem_append_right _ hc)])
    rw [h1, List.map_id]
  have hcount : doneCount (markChunkDone m db idx uri sha now) fid =
      doneCount db fid + 1 := by
    unfold doneCount
    rw [hchunks, hsplit, List.map_append, List.map_cons, hpre, hpost]
    rw [if_pos hc0id]
    rw [List.filter_append, List.filter_append, List.filter_cons,
      List.filter_cons]
    simp only [hc0file, hc0notdone]
    simp [hc0notdone]
    omega
  intro fr hfr hfrfid
  rw [hfiles] at hfr
  obtain ⟨fr0, hfr0mem, hfr0eq⟩ := List.mem_map.mp hfr
  rw [hcount]
  by_cases hmatch : some fr0.fileId = m.fileId
  · rw [if_pos hmatch] at hfr0eq
    have hfid0 : fr0.fileId = fid := by
      rw [hfid] at hmatch
      injection hmatch
    rw [← hfr0eq]
    show fr0.doneChunks + 1 = doneCount db fid + 1
    rw [hinv fr0 hfr0mem hfid0]
  · rw [if_neg hmatch] at hfr0eq
    exfalso
    apply hmatch
    rw [hfr0eq, hfrfid, hfid]

/-- Witness for C2 (amended): marking the single pending chunk done keeps the
counter of the (one) file row equal to the done count. -/
theorem C2_done_counter_amended_witness :
    (⟨"F", "j", "u", "fp", 1, 1, none, none, "t1"⟩ : FileRecord).doneChunks =
      doneCount (markChunkDone ⟨true, "u", "fp", 1, true, "j", some "F"⟩
        ⟨[], [⟨"F", "j", "u", "fp", 1, 0, none, none, "t0"⟩],
         [⟨chunkIdFor (some "F") 0, "F", 0, 0, 30, "p", ChunkStatus.pending,
           none, none, none, none, none, "t0"⟩]⟩ 0 "a0" "s0" "t1") "F" :=
  C2_done_counter_amended ⟨true, "u", "fp", 1, true, "j", some "F"⟩
    ⟨[], [⟨"F", "j", "u", "fp", 1, 0, none, none, "t0"⟩],
     [⟨chunkIdFor (some "F") 0, "F", 0, 0, 30, "p", ChunkStatus.pending,
       none, none, none, none, none, "t0"⟩]⟩
    "F" 0 "a0" "s0" "t1" [] []
    ⟨chunkIdFor (some "F") 0, "F", 0, 0, 30, "p", ChunkStatus.pending,
     none, none, none, none, none, "t0"⟩
    rfl rfl rfl rfl rfl (by decide) (by decide) (by decide)
    ⟨"F", "j", "u", "fp", 1, 1, none, none, "t1"⟩ (by decide) rfl

/-- C7: when the processing loop claims a chunk whose audio segment is
absent, it records that chunk as a permanent failure (with the
missing-input error) and keeps processing: every remaining chunk whose
audio is present still ends done, and the loop terminates normally. -/
theorem C7_missing_input_permanent (m : CheckpointManager) (env : LoopEnv)
    (clock : Nat → String) (fid : String) (N : Nat) (f : Nat → ChunkRecord)
    (jobs : List JobRecord) (files : List FileRecord)
    (arts : Nat → Option String) (t a : Nat)
    (hopen : m.connOpen = true) (hfid : m.fileId = some fid)
    (hfam : GoodFam fid N f)
    (hpend : ∀ i, i < N → (f i).status = ChunkStatus.pending)
    (haN : a < N) (hmiss : env.chunkAudioPresent a = false) :
    ∃ (g : Nat → ChunkRecord) (files2 : List FileRecord)
      (arts2 : Nat → Option String),
      chunkLoop m env clock t (N + 1)
          ⟨⟨jobs, files, (List.range N).map f⟩, arts⟩ =
        (⟨⟨jobs, files2, (List.range N).map g⟩, arts2⟩, true) ∧
      (g a).status = ChunkStatus.permanentFailed ∧
      (g a).lastError = some (chunkMissingMsg a) ∧
      (∀ i, i < N → env.chunkAudioPresent i = true →
        (g i).status = ChunkStatus.done) := by
  obtain ⟨g, files2, arts2, hrun, hg, _, _, hproc⟩ :=
    chunkLoop_shaped m env clock fid N hopen hfid N 0 f jobs files arts t
      (by omega) hfam (fun i hi => absurd hi (by omega))
      (fun i _ hiN => hpend i hiN)
  exact ⟨g, files2, arts2, hrun,
    ((hproc a (by omega) haN).2 hmiss).1,
    ((hproc a (by omega) haN).2 hmiss).2,
    fun i hi hp => ((hproc i (by omega) hi).1 hp).1⟩

/-- Witness for C7: two pending chunks, audio missing for chunk 0 and present
for chunk 1; the loop still terminates via its break. -/
theorem C7_missing_input_permanent_witness :
    (chunkLoop ⟨true, "u", "fp", 2, true, "j", some "F"⟩
      ⟨fun i => decide (i = 1), fun _ => "x", "dir"⟩ (fun _ => "t") 0 3
      ⟨⟨[], [], (List.range 2).map (fun i =>
        ⟨chunkIdFor (some "F") i, "F", i, (i : ℚ), (i : ℚ) + 1, "p",
         ChunkStatus.pending, none, none, none, none, none, "t0"⟩)⟩,
       fun _ => none⟩).2 = true := by
  obtain ⟨g, files2, arts2, hrun, _, _, _⟩ :=
    C7_missing_input_permanent ⟨true, "u", "fp", 2, true, "j", some "F"⟩
      ⟨fun i => decide (i = 1), fun _ => "x", "dir"⟩ (fun _ => "t") "F" 2
      (fun i => ⟨chunkIdFor (some "F") i, "F", i, (i : ℚ), (i : ℚ) + 1, "p",
        ChunkStatus.pending, none, none, none, none, none, "t0"⟩)
      [] [] (fun _ => none) 0 0
      rfl rfl (by unfold GoodFam; decide) (by decide) (by omega) (by decide)
  rw [hrun]

end MeetingsTranscript
